import Mathlib

/-!
Entry/exit discovery of `graphs.NewSubGraph` and the isomorphism matcher.

A shallow embedding of `NewSubGraph` from `graphs.go` together with the
properties of its scan over the node list of a graph, followed by the
isomorphism matcher that searches a target graph for a `SubGraph`. The
function is embedded twice: on graph values, and on an explicit memory in
which the graph, its nodes and the new `SubGraph` are objects behind pointers.

The graph types come from the `dot` package and the error constructors from
the `errutil` package; both are outside `graphs.go`, so only the fields and
calls that `NewSubGraph` uses are represented.
-/

set_option autoImplicit false

namespace dot

/-- Modelled from the spec: the attribute map `dot.Attrs` (string keys, string
values) is declared outside `graphs.go`; it is an association list read by
key. -/
abbrev Attrs := List (String × String)

/-- The two-valued map read `v, ok := attrs[key]`: `none` stands for
`ok = false`. -/
def Attrs.get (attrs : Attrs) (key : String) : Option String :=
  List.lookup key attrs

/-- Modelled from the spec: the node type `dot.Node` is declared outside
`graphs.go`; `NewSubGraph` reads its `Index` and `Attrs` fields. -/
structure Node where
  Index : Int
  Name : String
  Attrs : Attrs
  deriving DecidableEq, Repr

/-- Modelled from the spec: an edge is an ordered pair of node identities
(source, target); the edge type is declared outside `graphs.go`. -/
structure Edge where
  Src : Int
  Dst : Int
  deriving DecidableEq, Repr

/-- Modelled from the spec: the graph type `dot.Graph` is declared outside
`graphs.go`; `Nodes` is the slice `graph.Nodes.Nodes` in iteration order. -/
structure Graph where
  Nodes : List Node
  Edges : List Edge
  deriving DecidableEq, Repr

end dot

namespace errutil

/-- The error values built by `errutil.New` and `errutil.Newf`: the format
string and the integer arguments passed with it. -/
structure Error where
  format : String
  args : List Int
  deriving DecidableEq, Repr

/-- The call `errutil.New(text)`. -/
def New (text : String) : Error := { format := text, args := [] }

/-- The call `errutil.Newf(format, args...)`. -/
def Newf (format : String) (args : List Int) : Error := { format := format, args := args }

end errutil

namespace graphs

open dot

/-- The struct `SubGraph`: the embedded graph with a dedicated entry and exit
node. -/
structure SubGraph where
  Graph : dot.Graph
  entry : Int
  exit : Int
  deriving DecidableEq, Repr

/-- The local variables of `NewSubGraph` that the loop reads and writes. -/
structure Scan where
  sub : SubGraph
  hasEntry : Bool
  hasExit : Bool
  deriving DecidableEq, Repr

/-- The variables as they stand before the loop: `sub := &SubGraph{Graph: graph}`
and `var hasEntry, hasExit bool`. -/
def Scan.init (graph : dot.Graph) : Scan :=
  { sub := { Graph := graph, entry := 0, exit := 0 }, hasEntry := false, hasExit := false }

/-- One iteration of the loop body on `node`: either the updated variables or
the error of an early return. -/
def step (st : Scan) (node : Node) : Except errutil.Error Scan :=
  match node.Attrs.get "label" with
  | none => .ok st
  | some label =>
    if label = "entry" then
      if st.hasEntry then
        .error (errutil.Newf "redefinition of entry node; previous index (%d), new index (%d)"
          [st.sub.entry, node.Index])
      else
        .ok { st with sub := { st.sub with entry := node.Index }, hasEntry := true }
    else if label = "exit" then
      if st.hasExit then
        .error (errutil.Newf "redefinition of exit node; previous index (%d), new index (%d)"
          [st.sub.exit, node.Index])
      else
        .ok { st with sub := { st.sub with exit := node.Index }, hasExit := true }
    else
      .ok st

/-- The loop `for _, node := range graph.Nodes.Nodes`: the variables when the
loop is left, and the error when it is left by an early return. -/
def scan : Scan → List Node → Scan × Option errutil.Error
  | st, [] => (st, none)
  | st, node :: rest =>
    match step st node with
    | .error e => (st, some e)
    | .ok st1 => scan st1 rest

/-- The function `NewSubGraph`: `.error e` stands for the return `nil, e` and
`.ok sub` for `sub, nil`. -/
def NewSubGraph (graph : dot.Graph) : Except errutil.Error SubGraph :=
  match scan (Scan.init graph) graph.Nodes with
  | (_, some e) => .error e
  | (st, none) =>
    if !st.hasEntry then
      .error (errutil.New "unable to locate entry node")
    else if !st.hasExit then
      .error (errutil.New "unable to locate exit node")
    else
      .ok st.sub

/-! ## Vocabulary of the statements -/

/-- The node carries the attribute `label` with value exactly `entry`. -/
def isEntry (n : Node) : Bool := n.Attrs.get "label" == some "entry"

/-- The node carries the attribute `label` with value exactly `exit`. -/
def isExit (n : Node) : Bool := n.Attrs.get "label" == some "exit"

/-- The ordered subsequence of (label, Index) pairs of the nodes labelled
exactly `entry` or exactly `exit`. -/
def keySeq (nodes : List Node) : List (String × Int) :=
  nodes.filterMap fun n =>
    if isEntry n then some ("entry", n.Index)
    else if isExit n then some ("exit", n.Index)
    else none

/-- What a caller observes of a call: the error, or the (entry, exit) pair of
the returned subgraph. -/
def outcome (graph : dot.Graph) : Except errutil.Error (Int × Int) :=
  match NewSubGraph graph with
  | .error e => .error e
  | .ok sub => .ok (sub.entry, sub.exit)

/-- The Index of the first node of the list satisfying `p`, and `d` when no
node does. -/
def firstIndex (p : Node → Bool) (l : List Node) (d : Int) : Int :=
  match l.find? p with
  | some n => n.Index
  | none => d

/-- Two sets of loop variables that differ at most in the graph they hold. -/
def Scan.agree (s t : Scan) : Prop :=
  s.sub.entry = t.sub.entry ∧ s.sub.exit = t.sub.exit ∧
    s.hasEntry = t.hasEntry ∧ s.hasExit = t.hasExit

/-- The node that carries nothing but the label and Index of a pair of
`keySeq`. -/
def keyNode (k : String × Int) : Node :=
  { Index := k.2, Name := "", Attrs := [("label", k.1)] }

/-- A node with the given index and, when given, the `label` attribute. -/
def mkNode (idx : Int) (label : Option String) : Node :=
  { Index := idx, Name := "", Attrs := match label with
                                       | none => []
                                       | some l => [("label", l)] }

/-! ## The isomorphism matcher -/

/-- Modelled from the spec: the Mapping of the data model, missing from
`graphs.go`: the pairs (template node id, target node id) decided so far, the
latest decision first. -/
abbrev Mapping := List (Int × Int)

/-- Modelled from the spec: the Match of the data model, missing from
`graphs.go`: a completed Mapping. -/
abbrev Match := Mapping

/-- Modelled from the spec: the image of a template node id under a Mapping,
missing from `graphs.go`. -/
def Mapping.image (m : Mapping) (u : Int) : Option Int := List.lookup u m

/-- Modelled from the spec: the target node ids used in a Mapping, missing from
`graphs.go`. -/
def Mapping.targets (m : Mapping) : List Int := m.map fun p => p.2

/-- Modelled from the spec: edge existence as a set membership test of the
(source, target) pair, not a count (data model, Edge); missing from
`graphs.go`. -/
def hasEdge (g : dot.Graph) (a b : Int) : Bool := g.Edges.contains ⟨a, b⟩

/-- Modelled from the spec: the entry/exit exclusion rule, missing from
`graphs.go`: an edge from `u` to `v` is match-relevant unless it is incoming to
the entry node or outgoing from the exit node. -/
def relevantPair (t : SubGraph) (u v : Int) : Bool := u != t.exit && v != t.entry

/-- Modelled from the spec: the match-relevant edges of a template, missing
from `graphs.go`: all pattern edges except those incoming to entry and those
outgoing from exit. -/
def relevantEdge (t : SubGraph) (e : Edge) : Bool := relevantPair t e.Src e.Dst

/-- Modelled from the spec: the template has a match-relevant edge from `u` to
`v`; missing from `graphs.go`. -/
def templateEdge (t : SubGraph) (u v : Int) : Bool :=
  relevantPair t u v && hasEdge t.Graph u v

/-- Modelled from the spec: step 2 of the matcher, missing from `graphs.go`:
the breadth-first traversal from entry along match-relevant outgoing edges;
`queue` holds the discovered nodes still to expand and `seen` all discovered
nodes in discovery order. Each expansion takes a distinct discovered node, so
a fuel of one more than the number of edges reaches the end of the queue. -/
def bfs (t : SubGraph) : Nat → List Int → List Int → List Int
  | 0, _, seen => seen
  | _ + 1, [], seen => seen
  | fuel + 1, u :: queue, seen =>
    let next := (t.Graph.Edges.filter fun e => e.Src == u && relevantEdge t e).map fun e => e.Dst
    let fresh := (next.filter fun v => !seen.contains v).eraseDups
    bfs t fuel (queue ++ fresh) (seen ++ fresh)

/-- Modelled from the spec: the fixed exploration order of the template nodes
(step 2 of the matcher, missing from `graphs.go`), entry first. -/
def order (t : SubGraph) : List Int :=
  bfs t (t.Graph.Edges.length + 1) [t.entry] [t.entry]

/-- Modelled from the spec: step 3 of the matcher, missing from `graphs.go`:
the candidate target nodes of the template node `u`: the target nodes not yet
used in the Mapping (nor excluded by the policy) that are successors or
predecessors, in the direction of the template edge, of the images of the
already-mapped neighbours of `u`. -/
def candidates (t : SubGraph) (target : dot.Graph) (excluded : List Int) (m : Mapping)
    (u : Int) : List Int :=
  (target.Nodes.map fun n => n.Index).filter fun c =>
    !m.targets.contains c && !excluded.contains c &&
      m.all fun p =>
        (!templateEdge t p.1 u || hasEdge target p.2 c) &&
          (!templateEdge t u p.1 || hasEdge target c p.2)

/-- Modelled from the spec: adjacency consistency of the pair of template nodes
`u`, `v` mapped to `a`, `b` (data model, Mapping; missing from `graphs.go`):
when an edge from `u` to `v` would be match-relevant, it exists in the template
iff the edge from `a` to `b` exists in the target. -/
def pairConsistent (t : SubGraph) (target : dot.Graph) (u v a b : Int) : Bool :=
  !relevantPair t u v || (hasEdge t.Graph u v == hasEdge target a b)

/-- Modelled from the spec: step 4 of the matcher, missing from `graphs.go`:
the candidate `c` for `u` is verified against every already-mapped template
node, in both directions, and against itself (self-loops are matched by set
membership, step 6). -/
def consistent (t : SubGraph) (target : dot.Graph) (m : Mapping) (u c : Int) : Bool :=
  pairConsistent t target u u c c &&
    m.all fun p =>
      pairConsistent t target u p.1 c p.2 && pairConsistent t target p.1 u p.2 c

/-- Modelled from the spec: all template nodes are mapped (step 5 of the
matcher, missing from `graphs.go`). -/
def covers (t : SubGraph) (m : Mapping) : Bool :=
  t.Graph.Nodes.all fun n => (m.image n.Index).isSome

/-- Modelled from the spec: steps 3 to 5 of the matcher, missing from
`graphs.go`: the backtracking search over the template nodes still to map, in
traversal order; each verified candidate extends the Mapping, an exhausted
candidate list falls back to the previous decision, and a Mapping with every
template node mapped is a Match. The Matches come in discovery order. -/
def extend (t : SubGraph) (target : dot.Graph) (excluded : List Int) :
    List Int → Mapping → List Match
  | [], m => if covers t m then [m] else []
  | u :: rest, m =>
    ((candidates t target excluded m u).filter fun c => consistent t target m u c).flatMap
      fun c => extend t target excluded rest ((u, c) :: m)

/-- Modelled from the spec: step 1 of the matcher, missing from `graphs.go`:
the search grown from the Mapping template-entry ↦ `a` for the anchor `a`. -/
def searchFrom (t : SubGraph) (target : dot.Graph) (excluded : List Int) (a : Int) :
    List Match :=
  extend t target excluded (order t).tail [(t.entry, a)]

/-- Modelled from the spec: the match policies of step 5, missing from
`graphs.go`. -/
inductive Policy where
  | FirstMatch
  | AllMatches
  | DisjointMatches
  deriving DecidableEq, Repr

/-- Modelled from the spec: the failure `InvalidTemplate` of the matcher,
missing from `graphs.go`. -/
inductive MatchError where
  | InvalidTemplate
  deriving DecidableEq, Repr

/-- Modelled from the spec: the policy `DisjointMatches` (step 5, missing from
`graphs.go`): anchors in target node iteration order; a Match is recorded and
its target nodes are excluded from candidacy in the searches rooted at later
anchors. -/
def disjointMatches (t : SubGraph) (target : dot.Graph) : List Int → List Int → List Match
  | [], _ => []
  | a :: anchors, excluded =>
    if excluded.contains a then
      disjointMatches t target anchors excluded
    else
      match searchFrom t target excluded a with
      | [] => disjointMatches t target anchors excluded
      | m :: _ => m :: disjointMatches t target anchors (m.targets ++ excluded)

/-- Modelled from the spec: the contract `match(template, target, policy)` of
the Isomorphism Matcher, missing from `graphs.go`: every target node is a
candidate anchor; `FirstMatch` keeps the first Match of the enumeration,
`AllMatches` all of them, `DisjointMatches` the greedy disjoint selection; a
template whose entry and exit are the same node while it has more than one
node is rejected with `InvalidTemplate`. -/
def matchTemplate (t : SubGraph) (target : dot.Graph) (policy : Policy) :
    Except MatchError (List Match) :=
  if t.entry = t.exit ∧ 1 < t.Graph.Nodes.length then
    .error .InvalidTemplate
  else
    .ok <|
      match policy with
      | .AllMatches => (target.Nodes.map fun n => n.Index).flatMap (searchFrom t target [])
      | .FirstMatch =>
        ((target.Nodes.map fun n => n.Index).flatMap (searchFrom t target [])).take 1
      | .DisjointMatches => disjointMatches t target (target.Nodes.map fun n => n.Index) []

/-- The Mapping sends every match-relevant template edge between two mapped
nodes to an edge of the target. -/
def Mapping.sound (t : SubGraph) (target : dot.Graph) (m : Mapping) : Prop :=
  ∀ u v a b, m.image u = some a → m.image v = some b →
    templateEdge t u v = true → hasEdge target a b = true

/-- Modelled from the spec: the template of the first scenario of the testable
properties: entry A → B, B → C, with C the exit (A, B, C numbered 1, 2, 3). -/
def chainTemplate : SubGraph :=
  { Graph := ⟨[mkNode 1 (some "entry"), mkNode 2 none, mkNode 3 (some "exit")],
              [⟨1, 2⟩, ⟨2, 3⟩]⟩,
    entry := 1, exit := 3 }

/-- Modelled from the spec: the target of the first scenario of the testable
properties: the 3-cycle X → Y, Y → Z, Z → X (X, Y, Z numbered 10, 20, 30). -/
def cycleTarget : dot.Graph :=
  ⟨[mkNode 10 none, mkNode 20 none, mkNode 30 none], [⟨10, 20⟩, ⟨20, 30⟩, ⟨30, 10⟩]⟩

/-! ## The function on an explicit memory

`NewSubGraph` takes and returns pointers. Here the objects behind them live in
a memory that every read and write of the function goes through. -/

namespace mem

/-- A pointer of the program: the address of an object in memory. -/
abbrev Addr := Nat

/-- The objects the function reaches through pointers: a `dot.Graph` (which
points to its node holder `graph.Nodes`), the node holder with its slice of
node pointers `graph.Nodes.Nodes`, a `dot.Node`, and a `SubGraph` (which
points to its graph). -/
inductive Obj where
  | graph (nodes : Addr) (edges : List Edge)
  | nodes (ptrs : List Addr)
  | node (n : Node)
  | sub (graph : Addr) (entry : Int) (exit : Int)
  deriving DecidableEq, Repr

/-- The memory: the object at each allocated address, the address being the
position in the list. -/
structure Heap where
  cells : List Obj
  deriving DecidableEq, Repr

/-- Reading through a pointer; `none` when nothing is allocated there. -/
def Heap.read (h : Heap) (a : Addr) : Option Obj := h.cells[a]?

/-- Writing through a pointer. -/
def Heap.write (h : Heap) (a : Addr) (o : Obj) : Heap := { cells := h.cells.set a o }

/-- Allocating a new object, as `&SubGraph{...}` does: the memory with the
object added, and its address. -/
def Heap.alloc (h : Heap) (o : Obj) : Heap × Addr :=
  ({ cells := h.cells ++ [o] }, h.cells.length)

/-- The local variables of `NewSubGraph`: the pointer `sub` and the two
flags. -/
structure Vars where
  sub : Addr
  hasEntry : Bool
  hasExit : Bool
  deriving DecidableEq, Repr

/-- How an iteration of the loop ends: the loop goes on with the variables,
the function returns `nil, err`, or a pointer that holds no object of the
expected kind is dereferenced. -/
inductive Flow where
  | next (v : Vars)
  | fail (e : errutil.Error)
  | panic
  deriving DecidableEq, Repr

/-- The read `sub.entry`. -/
def getEntry (h : Heap) (sub : Addr) : Option Int :=
  match h.read sub with
  | some (.sub _ entry _) => some entry
  | _ => none

/-- The read `sub.exit`. -/
def getExit (h : Heap) (sub : Addr) : Option Int :=
  match h.read sub with
  | some (.sub _ _ exit) => some exit
  | _ => none

/-- The assignment `sub.entry = idx`. -/
def setEntry (h : Heap) (sub : Addr) (idx : Int) : Option Heap :=
  match h.read sub with
  | some (.sub g _ exit) => some (h.write sub (.sub g idx exit))
  | _ => none

/-- The assignment `sub.exit = idx`. -/
def setExit (h : Heap) (sub : Addr) (idx : Int) : Option Heap :=
  match h.read sub with
  | some (.sub g entry _) => some (h.write sub (.sub g entry idx))
  | _ => none

/-- One iteration of the loop body on the node pointer `node`: the memory
after it and how it ends. -/
def step (h : Heap) (v : Vars) (node : Addr) : Heap × Flow :=
  match h.read node with
  | some (.node n) =>
    match n.Attrs.get "label" with
    | none => (h, .next v)
    | some label =>
      if label = "entry" then
        if v.hasEntry then
          match getEntry h v.sub with
          | some previous =>
            (h, .fail (errutil.Newf
              "redefinition of entry node; previous index (%d), new index (%d)"
              [previous, n.Index]))
          | none => (h, .panic)
        else
          match setEntry h v.sub n.Index with
          | some h1 => (h1, .next { v with hasEntry := true })
          | none => (h, .panic)
      else if label = "exit" then
        if v.hasExit then
          match getExit h v.sub with
          | some previous =>
            (h, .fail (errutil.Newf
              "redefinition of exit node; previous index (%d), new index (%d)"
              [previous, n.Index]))
          | none => (h, .panic)
        else
          match setExit h v.sub n.Index with
          | some h1 => (h1, .next { v with hasExit := true })
          | none => (h, .panic)
      else
        (h, .next v)
  | _ => (h, .panic)

/-- The loop over the node pointers of the slice. -/
def scan : Heap → Vars → List Addr → Heap × Flow
  | h, v, [] => (h, .next v)
  | h, v, node :: rest =>
    match step h v node with
    | (h1, .next v1) => scan h1 v1 rest
    | (h1, .fail e) => (h1, .fail e)
    | (h1, .panic) => (h1, .panic)

/-- The tests after the loop and the return. -/
def finish (h : Heap) : Flow → Heap × Option (Except errutil.Error Addr)
  | .fail e => (h, some (.error e))
  | .panic => (h, none)
  | .next v =>
    if !v.hasEntry then
      (h, some (.error (errutil.New "unable to locate entry node")))
    else if !v.hasExit then
      (h, some (.error (errutil.New "unable to locate exit node")))
    else
      (h, some (.ok v.sub))

/-- The function `NewSubGraph` on the memory `h` and the pointer `graph`: the
memory after the call and the result, `some (.ok sub)` for the return
`sub, nil`, `some (.error e)` for `nil, e`, and `none` when the call does not
return because a pointer is dereferenced that holds no object of the expected
kind. -/
def NewSubGraph (h : Heap) (graph : Addr) : Heap × Option (Except errutil.Error Addr) :=
  match (h.alloc (.sub graph 0 0)).1.read graph with
  | some (.graph nodes _) =>
    match (h.alloc (.sub graph 0 0)).1.read nodes with
    | some (.nodes ptrs) =>
      match scan (h.alloc (.sub graph 0 0)).1
          { sub := (h.alloc (.sub graph 0 0)).2, hasEntry := false, hasExit := false } ptrs with
      | (h2, flow) => finish h2 flow
    | _ => ((h.alloc (.sub graph 0 0)).1, none)
  | _ => ((h.alloc (.sub graph 0 0)).1, none)

/-- The memory that holds the graph `g` and nothing else: the graph object at
address 0, its node holder at address 1, and its nodes from address 2 on. -/
def Heap.ofGraph (g : dot.Graph) : Heap :=
  { cells := .graph 1 g.Edges :: .nodes ((List.range g.Nodes.length).map fun i => i + 2) ::
      g.Nodes.map Obj.node }

end mem

/-! ## The loop body by kind of node -/

theorem isExit_eq_false_of_isEntry {n : Node} (h : isEntry n = true) : isExit n = false := by
  unfold isEntry at h
  unfold isExit
  cases hl : n.Attrs.get "label" with
  | none => rfl
  | some l =>
    rw [hl] at h
    have hl1 : l = "entry" := by simpa using h
    subst hl1
    decide

theorem isEntry_eq_false_of_isExit {n : Node} (h : isExit n = true) : isEntry n = false := by
  cases he : isEntry n with
  | false => rfl
  | true => rw [isExit_eq_false_of_isEntry he] at h; cases h

theorem step_other (st : Scan) {n : Node} (he : isEntry n = false) (hx : isExit n = false) :
    step st n = .ok st := by
  unfold isEntry at he
  unfold isExit at hx
  unfold step
  cases hl : n.Attrs.get "label" with
  | none => rfl
  | some l =>
    rw [hl] at he hx
    have h1 : l ≠ "entry" := by simpa using he
    have h2 : l ≠ "exit" := by simpa using hx
    simp [h1, h2]

theorem step_entry (st : Scan) {n : Node} (he : isEntry n = true) :
    step st n =
      if st.hasEntry then
        .error (errutil.Newf "redefinition of entry node; previous index (%d), new index (%d)"
          [st.sub.entry, n.Index])
      else
        .ok { st with sub := { st.sub with entry := n.Index }, hasEntry := true } := by
  unfold isEntry at he
  unfold step
  cases hl : n.Attrs.get "label" with
  | none => rw [hl] at he; cases he
  | some l =>
    rw [hl] at he
    have h1 : l = "entry" := by simpa using he
    simp [h1]

theorem step_exit (st : Scan) {n : Node} (hx : isExit n = true) :
    step st n =
      if st.hasExit then
        .error (errutil.Newf "redefinition of exit node; previous index (%d), new index (%d)"
          [st.sub.exit, n.Index])
      else
        .ok { st with sub := { st.sub with exit := n.Index }, hasExit := true } := by
  unfold isExit at hx
  unfold step
  cases hl : n.Attrs.get "label" with
  | none => rw [hl] at hx; cases hx
  | some l =>
    rw [hl] at hx
    have h1 : l = "exit" := by simpa using hx
    subst h1
    simp

/-! ## The loop -/

theorem scan_append (st : Scan) (l1 l2 : List Node) :
    scan st (l1 ++ l2) =
      match scan st l1 with
      | (st1, none) => scan st1 l2
      | (st1, some e) => (st1, some e) := by
  induction l1 generalizing st with
  | nil => simp [scan]
  | cons n l ih =>
    simp only [List.cons_append, scan]
    cases hs : step st n with
    | error e => simp
    | ok st1 => simpa using ih st1

theorem firstIndex_cons_pos (p : Node → Bool) (n : Node) (l : List Node) (d : Int)
    (h : p n = true) : firstIndex p (n :: l) d = n.Index := by
  simp [firstIndex, List.find?_cons, h]

theorem firstIndex_cons_neg (p : Node → Bool) (n : Node) (l : List Node) (d : Int)
    (h : p n = false) : firstIndex p (n :: l) d = firstIndex p l d := by
  simp [firstIndex, List.find?_cons, h]

theorem firstIndex_of_count_zero (p : Node → Bool) (l : List Node) (d : Int)
    (h : l.countP p = 0) : firstIndex p l d = d := by
  have h1 : l.find? p = none := by
    rw [List.find?_eq_none]
    intro x hx
    have := (List.countP_eq_zero.mp h) x hx
    simpa using this
  simp [firstIndex, h1]

theorem any_of_count_zero (p : Node → Bool) (l : List Node) (h : l.countP p = 0) :
    l.any p = false := by
  rw [List.any_eq_false]
  intro x hx
  have := (List.countP_eq_zero.mp h) x hx
  simpa using this

/-- When neither label is met twice the loop runs to its end, and its
variables hold the first entry-labelled and first exit-labelled index. -/
theorem scan_of_le_one (st : Scan) (l : List Node)
    (he : st.hasEntry.toNat + l.countP isEntry ≤ 1)
    (hx : st.hasExit.toNat + l.countP isExit ≤ 1) :
    scan st l =
      ({ sub := { Graph := st.sub.Graph,
                  entry := firstIndex isEntry l st.sub.entry,
                  exit := firstIndex isExit l st.sub.exit },
         hasEntry := st.hasEntry || l.any isEntry,
         hasExit := st.hasExit || l.any isExit }, none) := by
  induction l generalizing st with
  | nil => simp [scan, firstIndex]
  | cons n l ih =>
    cases hne : isEntry n with
    | true =>
      have hnx := isExit_eq_false_of_isEntry hne
      rw [List.countP_cons_of_pos _ _ hne] at he
      rw [List.countP_cons_of_neg _ _ (by simp [hnx])] at hx
      have hse : st.hasEntry = false := by
        cases h : st.hasEntry with
        | false => rfl
        | true => rw [h] at he; simp at he
      have hc : l.countP isEntry = 0 := by omega
      simp only [scan, step_entry st hne, hse, Bool.false_eq_true, if_false]
      rw [ih]
      · simp [firstIndex_cons_pos _ _ _ _ hne, firstIndex_cons_neg _ _ _ _ hnx,
          firstIndex_of_count_zero _ _ _ hc, hne, hnx]
      · simp [hc]
      · simpa using hx
    | false =>
      rw [List.countP_cons_of_neg _ _ (by simp [hne])] at he
      cases hnx : isExit n with
      | true =>
        rw [List.countP_cons_of_pos _ _ hnx] at hx
        have hsx : st.hasExit = false := by
          cases h : st.hasExit with
          | false => rfl
          | true => rw [h] at hx; simp at hx
        have hc : l.countP isExit = 0 := by omega
        simp only [scan, step_exit st hnx, hsx, Bool.false_eq_true, if_false]
        rw [ih]
        · simp [firstIndex_cons_pos _ _ _ _ hnx, firstIndex_cons_neg _ _ _ _ hne,
            firstIndex_of_count_zero _ _ _ hc, hne, hnx]
        · simpa using he
        · simp [hc]
      | false =>
        rw [List.countP_cons_of_neg _ _ (by simp [hnx])] at hx
        simp only [scan, step_other st hne hnx]
        rw [ih _ he hx]
        simp [firstIndex_cons_neg _ _ _ _ hne, firstIndex_cons_neg _ _ _ _ hnx, hne, hnx]

/-- When a label is met twice the loop is left by an early return. -/
theorem scan_of_two_le (st : Scan) (l : List Node)
    (h : 2 ≤ st.hasEntry.toNat + l.countP isEntry ∨ 2 ≤ st.hasExit.toNat + l.countP isExit) :
    ∃ e, (scan st l).2 = some e := by
  induction l generalizing st with
  | nil =>
    have h1 := Bool.toNat_le st.hasEntry
    have h2 := Bool.toNat_le st.hasExit
    simp at h
    omega
  | cons n l ih =>
    cases hne : isEntry n with
    | true =>
      have hnx := isExit_eq_false_of_isEntry hne
      rw [List.countP_cons_of_pos _ _ hne, List.countP_cons_of_neg _ _ (by simp [hnx])] at h
      simp only [scan, step_entry st hne]
      cases hse : st.hasEntry with
      | true => simp
      | false =>
        simp only [Bool.false_eq_true, if_false]
        apply ih
        simp only [Bool.toNat_true]
        rw [hse] at h
        simp only [Bool.toNat_false] at h
        omega
    | false =>
      rw [List.countP_cons_of_neg _ _ (by simp [hne])] at h
      cases hnx : isExit n with
      | true =>
        rw [List.countP_cons_of_pos _ _ hnx] at h
        simp only [scan, step_exit st hnx]
        cases hsx : st.hasExit with
        | true => simp
        | false =>
          simp only [Bool.false_eq_true, if_false]
          apply ih
          simp only [Bool.toNat_true]
          rw [hsx] at h
          simp only [Bool.toNat_false] at h
          omega
      | false =>
        rw [List.countP_cons_of_neg _ _ (by simp [hnx])] at h
        simp only [scan, step_other st hne hnx]
        exact ih st h

/-! ## Unique nodes -/

theorem eq_of_count_one (p : Node → Bool) (l : List Node) (h : l.countP p = 1)
    {a b : Node} (ha : a ∈ l) (hpa : p a = true) (hb : b ∈ l) (hpb : p b = true) : a = b := by
  rw [List.countP_eq_length_filter, List.length_eq_one] at h
  obtain ⟨c, hc⟩ := h
  have h1 : a ∈ l.filter p := List.mem_filter.mpr ⟨ha, hpa⟩
  have h2 : b ∈ l.filter p := List.mem_filter.mpr ⟨hb, hpb⟩
  rw [hc] at h1 h2
  rw [List.mem_singleton.mp h1, List.mem_singleton.mp h2]

theorem exists_of_count_pos (p : Node → Bool) (l : List Node) (h : 0 < l.countP p) :
    ∃ a, a ∈ l ∧ p a = true := by
  obtain ⟨a, ha, hp⟩ := List.countP_pos_iff.mp h
  exact ⟨a, ha, hp⟩

theorem any_of_count_pos (p : Node → Bool) (l : List Node) (h : 0 < l.countP p) :
    l.any p = true := by
  obtain ⟨a, ha, hp⟩ := exists_of_count_pos p l h
  exact List.any_eq_true.mpr ⟨a, ha, hp⟩

theorem firstIndex_of_count_one (p : Node → Bool) (l : List Node) (d : Int)
    (h : l.countP p = 1) {a : Node} (ha : a ∈ l) (hpa : p a = true) :
    firstIndex p l d = a.Index := by
  unfold firstIndex
  cases hf : l.find? p with
  | none =>
    have := List.find?_eq_none.mp hf a ha
    simp [hpa] at this
  | some m =>
    have hm : m ∈ l := List.mem_of_find?_eq_some hf
    have hpm : p m = true := List.find?_some hf
    rw [eq_of_count_one p l h ha hpa hm hpm]

/-! ## The function as a whole -/

/-- When neither label occurs twice, the result is decided by the presence of
the two labels. -/
theorem NewSubGraph_of_le_one (g : dot.Graph)
    (he : g.Nodes.countP isEntry ≤ 1) (hx : g.Nodes.countP isExit ≤ 1) :
    NewSubGraph g =
      if g.Nodes.any isEntry = false then
        .error (errutil.New "unable to locate entry node")
      else if g.Nodes.any isExit = false then
        .error (errutil.New "unable to locate exit node")
      else
        .ok { Graph := g, entry := firstIndex isEntry g.Nodes 0,
              exit := firstIndex isExit g.Nodes 0 } := by
  unfold NewSubGraph
  rw [scan_of_le_one (Scan.init g) g.Nodes (by simpa [Scan.init] using he)
    (by simpa [Scan.init] using hx)]
  simp only [Scan.init, Bool.false_or]
  cases g.Nodes.any isEntry <;> cases g.Nodes.any isExit <;> simp

/-- When a label occurs twice, the call returns an error. -/
theorem NewSubGraph_of_two_le (g : dot.Graph)
    (h : 2 ≤ g.Nodes.countP isEntry ∨ 2 ≤ g.Nodes.countP isExit) :
    ∃ e, NewSubGraph g = .error e := by
  obtain ⟨e, he⟩ := scan_of_two_le (Scan.init g) g.Nodes (by simpa [Scan.init] using h)
  refine ⟨e, ?_⟩
  unfold NewSubGraph
  cases hs : scan (Scan.init g) g.Nodes with
  | mk st r =>
    rw [hs] at he
    simp only at he
    subst he
    rfl

/-- A call succeeds exactly when each label occurs once, and then returns the
input graph with the indices of the two labelled nodes. -/
theorem NewSubGraph_ok_iff (g : dot.Graph) (s : SubGraph) :
    NewSubGraph g = .ok s ↔
      g.Nodes.countP isEntry = 1 ∧ g.Nodes.countP isExit = 1 ∧
        s = { Graph := g, entry := firstIndex isEntry g.Nodes 0,
              exit := firstIndex isExit g.Nodes 0 } := by
  by_cases h2 : 2 ≤ g.Nodes.countP isEntry ∨ 2 ≤ g.Nodes.countP isExit
  · obtain ⟨e, he⟩ := NewSubGraph_of_two_le g h2
    rw [he]
    constructor
    · intro h; cases h
    · rintro ⟨h1, h3, -⟩; omega
  · have he : g.Nodes.countP isEntry ≤ 1 := by omega
    have hx : g.Nodes.countP isExit ≤ 1 := by omega
    rw [NewSubGraph_of_le_one g he hx]
    by_cases hae : g.Nodes.countP isEntry = 0
    · rw [any_of_count_zero _ _ hae]
      simp [hae]
    · have hae1 : g.Nodes.countP isEntry = 1 := by omega
      rw [any_of_count_pos _ _ (by omega)]
      by_cases hax : g.Nodes.countP isExit = 0
      · rw [any_of_count_zero _ _ hax]
        simp [hax]
      · have hax1 : g.Nodes.countP isExit = 1 := by omega
        rw [any_of_count_pos _ _ (by omega)]
        simp only [Bool.true_eq_false, if_false, Except.ok.injEq, hae1, hax1, true_and]
        exact eq_comm

/-! ## What the loop reads -/

theorem step_graph (st st1 : Scan) (n : Node) (h : step st n = .ok st1) :
    st1.sub.Graph = st.sub.Graph := by
  cases hne : isEntry n with
  | true =>
    rw [step_entry st hne] at h
    cases hse : st.hasEntry with
    | true => simp [hse] at h
    | false =>
      simp only [hse, Bool.false_eq_true, if_false, Except.ok.injEq] at h
      rw [← h]
  | false =>
    cases hnx : isExit n with
    | true =>
      rw [step_exit st hnx] at h
      cases hsx : st.hasExit with
      | true => simp [hsx] at h
      | false =>
        simp only [hsx, Bool.false_eq_true, if_false, Except.ok.injEq] at h
        rw [← h]
    | false =>
      rw [step_other st hne hnx] at h
      cases h
      rfl

theorem scan_graph (st : Scan) (l : List Node) : (scan st l).1.sub.Graph = st.sub.Graph := by
  induction l generalizing st with
  | nil => rfl
  | cons n l ih =>
    simp only [scan]
    cases hs : step st n with
    | error e => rfl
    | ok st1 =>
      simp only
      rw [ih st1, step_graph st st1 n hs]

theorem step_agree {s t : Scan} (h : s.agree t) (n : Node) :
    (∃ e, step s n = .error e ∧ step t n = .error e) ∨
      ∃ s1 t1, step s n = .ok s1 ∧ step t n = .ok t1 ∧ s1.agree t1 := by
  obtain ⟨h1, h2, h3, h4⟩ := h
  cases hne : isEntry n with
  | true =>
    rw [step_entry s hne, step_entry t hne, ← h3, h1]
    cases hse : s.hasEntry with
    | true => exact Or.inl ⟨_, rfl, rfl⟩
    | false => exact Or.inr ⟨_, _, rfl, rfl, rfl, h2, rfl, h4⟩
  | false =>
    cases hnx : isExit n with
    | true =>
      rw [step_exit s hnx, step_exit t hnx, ← h4, h2]
      cases hsx : s.hasExit with
      | true => exact Or.inl ⟨_, rfl, rfl⟩
      | false => exact Or.inr ⟨_, _, rfl, rfl, h1, rfl, h3, rfl⟩
    | false =>
      rw [step_other s hne hnx, step_other t hne hnx]
      exact Or.inr ⟨_, _, rfl, rfl, h1, h2, h3, h4⟩

theorem scan_agree {s t : Scan} (h : s.agree t) (l : List Node) :
    (scan s l).1.agree (scan t l).1 ∧ (scan s l).2 = (scan t l).2 := by
  induction l generalizing s t with
  | nil => exact ⟨h, rfl⟩
  | cons n l ih =>
    simp only [scan]
    rcases step_agree h n with ⟨e, hs, ht⟩ | ⟨s1, t1, hs, ht, h1⟩
    · rw [hs, ht]
      exact ⟨h, rfl⟩
    · rw [hs, ht]
      exact ih h1

theorem isEntry_keyNode (i : Int) : isEntry (keyNode ("entry", i)) = true := by
  simp [isEntry, keyNode, Attrs.get, List.lookup]

theorem isExit_keyNode (i : Int) : isExit (keyNode ("exit", i)) = true := by
  simp [isExit, keyNode, Attrs.get, List.lookup]

/-- The loop on a node list is the loop on the nodes rebuilt from its
`keySeq`. -/
theorem scan_keySeq (st : Scan) (l : List Node) :
    scan st l = scan st ((keySeq l).map keyNode) := by
  induction l generalizing st with
  | nil => rfl
  | cons n l ih =>
    cases hne : isEntry n with
    | true =>
      have hk : keySeq (n :: l) = ("entry", n.Index) :: keySeq l := by
        simp [keySeq, hne]
      rw [hk]
      simp only [List.map_cons, scan]
      rw [step_entry st hne, step_entry st (isEntry_keyNode n.Index)]
      cases st.hasEntry with
      | true => rfl
      | false => exact ih _
    | false =>
      cases hnx : isExit n with
      | true =>
        have hk : keySeq (n :: l) = ("exit", n.Index) :: keySeq l := by
          simp [keySeq, hne, hnx]
        rw [hk]
        simp only [List.map_cons, scan]
        rw [step_exit st hnx, step_exit st (isExit_keyNode n.Index)]
        cases st.hasExit with
        | true => rfl
        | false => exact ih _
      | false =>
        have hk : keySeq (n :: l) = keySeq l := by
          simp [keySeq, hne, hnx]
        rw [hk]
        simp only [scan, step_other st hne hnx]
        exact ih st

theorem count_add_count_le_length (l : List Node) :
    l.countP isEntry + l.countP isExit ≤ l.length := by
  induction l with
  | nil => simp
  | cons n l ih =>
    cases hne : isEntry n with
    | true =>
      rw [List.countP_cons_of_pos _ _ hne,
        List.countP_cons_of_neg _ _ (by simp [isExit_eq_false_of_isEntry hne])]
      simp only [List.length_cons]
      omega
    | false =>
      rw [List.countP_cons_of_neg _ _ (by simp [hne])]
      have := List.countP_cons isExit n l
      simp only [List.length_cons]
      split at this <;> omega

/-! ## Properties of `NewSubGraph` -/

/-- C1: when exactly one node of the graph is labelled `entry` and exactly one
is labelled `exit`, `NewSubGraph` returns no error and the returned subgraph
has as entry the Index of the entry-labelled node and as exit the Index of the
exit-labelled node, wherever the two nodes stand in the node list. -/
theorem NewSubGraph_ok_of_unique (g : dot.Graph) (ne nx : Node)
    (hne : ne ∈ g.Nodes) (hnx : nx ∈ g.Nodes)
    (hle : isEntry ne = true) (hlx : isExit nx = true)
    (hce : g.Nodes.countP isEntry = 1) (hcx : g.Nodes.countP isExit = 1) :
    NewSubGraph g = .ok { Graph := g, entry := ne.Index, exit := nx.Index } := by
  rw [NewSubGraph_ok_iff]
  refine ⟨hce, hcx, ?_⟩
  rw [firstIndex_of_count_one isEntry g.Nodes 0 hce hne hle,
    firstIndex_of_count_one isExit g.Nodes 0 hcx hnx hlx]

theorem NewSubGraph_ok_of_unique_witness :
    NewSubGraph ⟨[mkNode 3 (some "exit"), mkNode 7 none, mkNode 5 (some "entry")], [⟨5, 3⟩]⟩
      = .ok { Graph := ⟨[mkNode 3 (some "exit"), mkNode 7 none, mkNode 5 (some "entry")],
                [⟨5, 3⟩]⟩,
              entry := 5, exit := 3 } :=
  NewSubGraph_ok_of_unique
    ⟨[mkNode 3 (some "exit"), mkNode 7 none, mkNode 5 (some "entry")], [⟨5, 3⟩]⟩
    (mkNode 5 (some "entry")) (mkNode 3 (some "exit"))
    (by decide) (by decide) (by decide) (by decide) (by decide) (by decide)

/-- C2: when the number of `entry`-labelled nodes is zero or at least two, or
the number of `exit`-labelled nodes is zero or at least two, `NewSubGraph`
returns an error and no subgraph; put the other way round, whenever it
succeeds the graph has exactly one entry-labelled and exactly one
exit-labelled node. -/
theorem NewSubGraph_error_of_bad_count (g : dot.Graph) :
    ((g.Nodes.countP isEntry = 0 ∨ 2 ≤ g.Nodes.countP isEntry ∨
        g.Nodes.countP isExit = 0 ∨ 2 ≤ g.Nodes.countP isExit) →
      (∃ e, NewSubGraph g = .error e) ∧ ∀ s, NewSubGraph g ≠ .ok s) ∧
    (∀ s, NewSubGraph g = .ok s →
      g.Nodes.countP isEntry = 1 ∧ g.Nodes.countP isExit = 1) := by
  have hok : ∀ s, NewSubGraph g = .ok s →
      g.Nodes.countP isEntry = 1 ∧ g.Nodes.countP isExit = 1 := by
    intro s hs
    obtain ⟨h1, h2, -⟩ := (NewSubGraph_ok_iff g s).mp hs
    exact ⟨h1, h2⟩
  refine ⟨?_, hok⟩
  intro h
  have hno : ∀ s, NewSubGraph g ≠ .ok s := by
    intro s hs
    obtain ⟨h1, h2⟩ := hok s hs
    omega
  refine ⟨?_, hno⟩
  cases hr : NewSubGraph g with
  | error e => exact ⟨e, rfl⟩
  | ok s => exact absurd hr (hno s)

theorem NewSubGraph_error_of_bad_count_witness :
    (∃ e, NewSubGraph ⟨[mkNode 1 (some "entry"), mkNode 2 (some "entry"),
        mkNode 3 (some "exit")], []⟩ = .error e) ∧
      ∀ s, NewSubGraph ⟨[mkNode 1 (some "entry"), mkNode 2 (some "entry"),
        mkNode 3 (some "exit")], []⟩ ≠ .ok s :=
  (NewSubGraph_error_of_bad_count ⟨[mkNode 1 (some "entry"), mkNode 2 (some "entry"),
    mkNode 3 (some "exit")], []⟩).1 (by decide)

/-- C3: for two graphs whose node lists are permutations of each other,
`NewSubGraph` succeeds on one exactly when it succeeds on the other, and when
it succeeds both calls return the same entry and the same exit. -/
theorem NewSubGraph_perm (g1 g2 : dot.Graph) (hp : g1.Nodes.Perm g2.Nodes) :
    ((∃ s, NewSubGraph g1 = .ok s) ↔ (∃ s, NewSubGraph g2 = .ok s)) ∧
      ∀ s1 s2, NewSubGraph g1 = .ok s1 → NewSubGraph g2 = .ok s2 →
        s1.entry = s2.entry ∧ s1.exit = s2.exit := by
  have hce : g1.Nodes.countP isEntry = g2.Nodes.countP isEntry := hp.countP_eq isEntry
  have hcx : g1.Nodes.countP isExit = g2.Nodes.countP isExit := hp.countP_eq isExit
  constructor
  · constructor
    · rintro ⟨s, hs⟩
      obtain ⟨h1, h2, -⟩ := (NewSubGraph_ok_iff g1 s).mp hs
      exact ⟨_, (NewSubGraph_ok_iff g2 _).mpr ⟨hce ▸ h1, hcx ▸ h2, rfl⟩⟩
    · rintro ⟨s, hs⟩
      obtain ⟨h1, h2, -⟩ := (NewSubGraph_ok_iff g2 s).mp hs
      exact ⟨_, (NewSubGraph_ok_iff g1 _).mpr ⟨hce.symm ▸ h1, hcx.symm ▸ h2, rfl⟩⟩
  · intro s1 s2 h1 h2
    obtain ⟨he1, hx1, rfl⟩ := (NewSubGraph_ok_iff g1 s1).mp h1
    obtain ⟨he2, hx2, rfl⟩ := (NewSubGraph_ok_iff g2 s2).mp h2
    obtain ⟨a, ha, hpa⟩ := exists_of_count_pos isEntry g1.Nodes (by omega)
    obtain ⟨b, hb, hpb⟩ := exists_of_count_pos isExit g1.Nodes (by omega)
    simp only
    rw [firstIndex_of_count_one isEntry g1.Nodes 0 he1 ha hpa,
      firstIndex_of_count_one isEntry g2.Nodes 0 he2 (hp.mem_iff.mp ha) hpa,
      firstIndex_of_count_one isExit g1.Nodes 0 hx1 hb hpb,
      firstIndex_of_count_one isExit g2.Nodes 0 hx2 (hp.mem_iff.mp hb) hpb]
    exact ⟨rfl, rfl⟩

theorem NewSubGraph_perm_witness :
    ((∃ s, NewSubGraph ⟨[mkNode 5 (some "entry"), mkNode 7 none, mkNode 3 (some "exit")], []⟩
        = .ok s) ↔
      (∃ s, NewSubGraph ⟨[mkNode 3 (some "exit"), mkNode 5 (some "entry"), mkNode 7 none], []⟩
        = .ok s)) ∧
      ∀ s1 s2,
        NewSubGraph ⟨[mkNode 5 (some "entry"), mkNode 7 none, mkNode 3 (some "exit")], []⟩
          = .ok s1 →
        NewSubGraph ⟨[mkNode 3 (some "exit"), mkNode 5 (some "entry"), mkNode 7 none], []⟩
          = .ok s2 →
        s1.entry = s2.entry ∧ s1.exit = s2.exit :=
  NewSubGraph_perm
    ⟨[mkNode 5 (some "entry"), mkNode 7 none, mkNode 3 (some "exit")], []⟩
    ⟨[mkNode 3 (some "exit"), mkNode 5 (some "entry"), mkNode 7 none], []⟩
    (by decide)

/-- C4: when a second `entry`-labelled node `n2` is reached by the scan, that
is when the nodes before it hold one entry-labelled node `n1` and at most one
exit-labelled node, `NewSubGraph` fails with the redefinition-of-entry error
carrying the Index of `n1` as previous index and the Index of `n2` as new
index. -/
theorem NewSubGraph_redefinition_of_entry (g : dot.Graph) (a b c : List Node) (n1 n2 : Node)
    (hnodes : g.Nodes = a ++ n1 :: (b ++ n2 :: c))
    (ha : ∀ n ∈ a, isEntry n = false) (hb : ∀ n ∈ b, isEntry n = false)
    (h1 : isEntry n1 = true) (h2 : isEntry n2 = true)
    (hx : (a ++ n1 :: b).countP isExit ≤ 1) :
    NewSubGraph g =
      .error (errutil.Newf "redefinition of entry node; previous index (%d), new index (%d)"
        [n1.Index, n2.Index]) := by
  have hsplit : g.Nodes = (a ++ n1 :: b) ++ n2 :: c := by simp [hnodes]
  have hca : a.countP isEntry = 0 :=
    List.countP_eq_zero.mpr fun n hn => by simp [ha n hn]
  have hcb : b.countP isEntry = 0 :=
    List.countP_eq_zero.mpr fun n hn => by simp [hb n hn]
  have hce : (a ++ n1 :: b).countP isEntry = 1 := by
    rw [List.countP_append, List.countP_cons_of_pos _ _ h1, hca, hcb]
  have hscan := scan_of_le_one (Scan.init g) (a ++ n1 :: b)
    (by simp [Scan.init, hce]) (by simpa [Scan.init] using hx)
  unfold NewSubGraph
  rw [hsplit, scan_append, hscan]
  simp only [scan]
  rw [step_entry _ h2]
  have hany : (a ++ n1 :: b).any isEntry = true :=
    any_of_count_pos isEntry (a ++ n1 :: b) (by omega)
  simp only [Scan.init, Bool.false_or, hany, if_true]
  rw [firstIndex_of_count_one isEntry (a ++ n1 :: b) 0 hce (by simp) h1]

theorem NewSubGraph_redefinition_of_entry_witness :
    NewSubGraph ⟨[mkNode 9 (some "exit"), mkNode 4 (some "entry"), mkNode 6 none,
        mkNode 2 (some "entry"), mkNode 8 (some "exit")], []⟩ =
      .error (errutil.Newf "redefinition of entry node; previous index (%d), new index (%d)"
        [4, 2]) :=
  NewSubGraph_redefinition_of_entry
    ⟨[mkNode 9 (some "exit"), mkNode 4 (some "entry"), mkNode 6 none,
      mkNode 2 (some "entry"), mkNode 8 (some "exit")], []⟩
    [mkNode 9 (some "exit")] [mkNode 6 none] [mkNode 8 (some "exit")]
    (mkNode 4 (some "entry")) (mkNode 2 (some "entry"))
    rfl (by decide) (by decide) (by decide) (by decide) (by decide)

/-- C5: when a second `exit`-labelled node `n2` is reached by the scan, that is
when the nodes before it hold one exit-labelled node `n1` and at most one
entry-labelled node, `NewSubGraph` fails with the redefinition-of-exit error
carrying the Index of `n1` as previous index and the Index of `n2` as new
index. -/
theorem NewSubGraph_redefinition_of_exit (g : dot.Graph) (a b c : List Node) (n1 n2 : Node)
    (hnodes : g.Nodes = a ++ n1 :: (b ++ n2 :: c))
    (ha : ∀ n ∈ a, isExit n = false) (hb : ∀ n ∈ b, isExit n = false)
    (h1 : isExit n1 = true) (h2 : isExit n2 = true)
    (he : (a ++ n1 :: b).countP isEntry ≤ 1) :
    NewSubGraph g =
      .error (errutil.Newf "redefinition of exit node; previous index (%d), new index (%d)"
        [n1.Index, n2.Index]) := by
  have hsplit : g.Nodes = (a ++ n1 :: b) ++ n2 :: c := by simp [hnodes]
  have hca : a.countP isExit = 0 :=
    List.countP_eq_zero.mpr fun n hn => by simp [ha n hn]
  have hcb : b.countP isExit = 0 :=
    List.countP_eq_zero.mpr fun n hn => by simp [hb n hn]
  have hcx : (a ++ n1 :: b).countP isExit = 1 := by
    rw [List.countP_append, List.countP_cons_of_pos _ _ h1, hca, hcb]
  have hscan := scan_of_le_one (Scan.init g) (a ++ n1 :: b)
    (by simpa [Scan.init] using he) (by simp [Scan.init, hcx])
  unfold NewSubGraph
  rw [hsplit, scan_append, hscan]
  simp only [scan]
  rw [step_exit _ h2]
  have hany : (a ++ n1 :: b).any isExit = true :=
    any_of_count_pos isExit (a ++ n1 :: b) (by omega)
  simp only [Scan.init, Bool.false_or, hany, if_true]
  rw [firstIndex_of_count_one isExit (a ++ n1 :: b) 0 hcx (by simp) h1]

theorem NewSubGraph_redefinition_of_exit_witness :
    NewSubGraph ⟨[mkNode 9 (some "exit"), mkNode 4 (some "entry"), mkNode 6 none,
        mkNode 8 (some "exit"), mkNode 2 (some "entry")], []⟩ =
      .error (errutil.Newf "redefinition of exit node; previous index (%d), new index (%d)"
        [9, 8]) :=
  NewSubGraph_redefinition_of_exit
    ⟨[mkNode 9 (some "exit"), mkNode 4 (some "entry"), mkNode 6 none,
      mkNode 8 (some "exit"), mkNode 2 (some "entry")], []⟩
    [] [mkNode 4 (some "entry"), mkNode 6 none] [mkNode 2 (some "entry")]
    (mkNode 9 (some "exit")) (mkNode 8 (some "exit"))
    rfl (by decide) (by decide) (by decide) (by decide) (by decide)

/-- C6: when the scan completes (no label occurs twice) and no node is
labelled `entry`, `NewSubGraph` fails with the missing-entry error
`unable to locate entry node`; the empty graph is the instance taken as
witness. -/
theorem NewSubGraph_missing_entry (g : dot.Graph)
    (he : g.Nodes.countP isEntry = 0) (hx : g.Nodes.countP isExit ≤ 1) :
    NewSubGraph g = .error (errutil.New "unable to locate entry node") := by
  rw [NewSubGraph_of_le_one g (by omega) hx, any_of_count_zero _ _ he]
  simp

theorem NewSubGraph_missing_entry_witness :
    NewSubGraph ⟨[], []⟩ = .error (errutil.New "unable to locate entry node") :=
  NewSubGraph_missing_entry ⟨[], []⟩ (by decide) (by decide)

/-- C7, as stated, fails on the empty graph: the scan completes and no node is
labelled `exit`, yet the error returned is the missing-entry error and not the
missing-exit error. -/
theorem NewSubGraph_missing_exit_counterexample :
    List.countP isEntry (dot.Graph.mk [] []).Nodes ≤ 1 ∧
      List.countP isExit (dot.Graph.mk [] []).Nodes = 0 ∧
      NewSubGraph (dot.Graph.mk [] []) = .error (errutil.New "unable to locate entry node") ∧
      NewSubGraph (dot.Graph.mk [] []) ≠ .error (errutil.New "unable to locate exit node") := by
  refine ⟨by decide, by decide, rfl, ?_⟩
  intro h
  have h1 : errutil.New "unable to locate entry node" = errutil.New "unable to locate exit node" :=
    Except.error.inj h
  exact absurd h1 (by decide)

/-- C7, amended: when the scan completes, exactly one node is labelled `entry`
and no node is labelled `exit`, `NewSubGraph` fails with the missing-exit error
`unable to locate exit node`. -/
theorem NewSubGraph_missing_exit (g : dot.Graph)
    (he : g.Nodes.countP isEntry = 1) (hx : g.Nodes.countP isExit = 0) :
    NewSubGraph g = .error (errutil.New "unable to locate exit node") := by
  rw [NewSubGraph_of_le_one g (by omega) (by omega), any_of_count_zero _ _ hx,
    any_of_count_pos _ _ (by omega)]
  simp

theorem NewSubGraph_missing_exit_witness :
    NewSubGraph ⟨[mkNode 1 none, mkNode 2 (some "entry"), mkNode 3 (some "Exit")], [⟨2, 3⟩]⟩
      = .error (errutil.New "unable to locate exit node") :=
  NewSubGraph_missing_exit
    ⟨[mkNode 1 none, mkNode 2 (some "entry"), mkNode 3 (some "Exit")], [⟨2, 3⟩]⟩
    (by decide) (by decide)

/-- C8: the outcome of `NewSubGraph` (the error, or the (entry, exit) pair) is
decided by the ordered (label, Index) pairs of the nodes labelled exactly
`entry` or exactly `exit`: two graphs with the same such sequence have the
same outcome, whatever their other nodes, other attributes and edges. -/
theorem outcome_eq_of_keySeq_eq (g1 g2 : dot.Graph)
    (h : keySeq g1.Nodes = keySeq g2.Nodes) : outcome g1 = outcome g2 := by
  have hinit : (Scan.init g1).agree (Scan.init g2) := ⟨rfl, rfl, rfl, rfl⟩
  have e1 := scan_keySeq (Scan.init g1) g1.Nodes
  have e2 := scan_keySeq (Scan.init g2) g2.Nodes
  rw [← h] at e2
  have hs := scan_agree hinit ((keySeq g1.Nodes).map keyNode)
  rw [← e1, ← e2] at hs
  obtain ⟨⟨h1, h2, h3, h4⟩, he⟩ := hs
  unfold outcome NewSubGraph
  cases hs1 : scan (Scan.init g1) g1.Nodes with
  | mk st1 r1 =>
    cases hs2 : scan (Scan.init g2) g2.Nodes with
    | mk st2 r2 =>
      rw [hs1, hs2] at h1 h2 h3 h4 he
      simp only at h1 h2 h3 h4 he
      subst he
      cases r1 with
      | some e => rfl
      | none =>
        simp only [h3, h4]
        cases st2.hasEntry <;> cases st2.hasExit <;> simp [h1, h2]

theorem outcome_eq_of_keySeq_eq_witness :
    outcome ⟨[mkNode 1 (some "entry"), mkNode 2 (some "exit")], [⟨1, 2⟩]⟩ =
      outcome ⟨[mkNode 7 (some "Entry"),
          { Index := 1, Name := "A", Attrs := [("color", "red"), ("label", "entry")] },
          mkNode 8 none, mkNode 2 (some "exit"), mkNode 9 (some "EXIT")], [⟨7, 9⟩, ⟨2, 1⟩]⟩ :=
  outcome_eq_of_keySeq_eq
    ⟨[mkNode 1 (some "entry"), mkNode 2 (some "exit")], [⟨1, 2⟩]⟩
    ⟨[mkNode 7 (some "Entry"),
      { Index := 1, Name := "A", Attrs := [("color", "red"), ("label", "entry")] },
      mkNode 8 none, mkNode 2 (some "exit"), mkNode 9 (some "EXIT")], [⟨7, 9⟩, ⟨2, 1⟩]⟩
    (by decide)

/-- C10: for a graph whose nodes have pairwise distinct Index values, a
subgraph returned by `NewSubGraph` has an entry different from its exit; a
graph on which the call succeeds has at least two nodes, so a one-node graph
never yields a subgraph. -/
theorem NewSubGraph_entry_ne_exit (g : dot.Graph) (s : SubGraph)
    (hd : (g.Nodes.map Node.Index).Nodup) (hs : NewSubGraph g = .ok s) :
    s.entry ≠ s.exit ∧ 2 ≤ g.Nodes.length := by
  obtain ⟨he, hx, rfl⟩ := (NewSubGraph_ok_iff g s).mp hs
  obtain ⟨a, ha, hpa⟩ := exists_of_count_pos isEntry g.Nodes (by omega)
  obtain ⟨b, hb, hpb⟩ := exists_of_count_pos isExit g.Nodes (by omega)
  constructor
  · simp only
    rw [firstIndex_of_count_one isEntry g.Nodes 0 he ha hpa,
      firstIndex_of_count_one isExit g.Nodes 0 hx hb hpb]
    intro hidx
    have hab : a = b := List.inj_on_of_nodup_map hd ha hb hidx
    rw [hab, isEntry_eq_false_of_isExit hpb] at hpa
    cases hpa
  · have := count_add_count_le_length g.Nodes
    omega

theorem NewSubGraph_entry_ne_exit_witness :
    (5 : Int) ≠ 3 ∧
      2 ≤ (dot.Graph.mk [mkNode 3 (some "exit"), mkNode 7 none, mkNode 5 (some "entry")]
        [⟨5, 3⟩]).Nodes.length :=
  NewSubGraph_entry_ne_exit
    ⟨[mkNode 3 (some "exit"), mkNode 7 none, mkNode 5 (some "entry")], [⟨5, 3⟩]⟩
    ⟨⟨[mkNode 3 (some "exit"), mkNode 7 none, mkNode 5 (some "entry")], [⟨5, 3⟩]⟩, 5, 3⟩
    (by decide) rfl

/-! ## Soundness of the matcher -/

theorem image_cons (m : Mapping) (u c x : Int) :
    Mapping.image ((u, c) :: m) x = if x = u then some c else Mapping.image m x := by
  unfold Mapping.image
  rw [List.lookup_cons]
  by_cases h : x = u
  · simp [h]
  · have hb : (x == u) = false := by simpa using h
    simp [h, hb]

theorem mem_of_image (m : Mapping) (x a : Int) (h : Mapping.image m x = some a) :
    (x, a) ∈ m := by
  induction m with
  | nil => simp [Mapping.image] at h
  | cons p m ih =>
    obtain ⟨u, c⟩ := p
    rw [image_cons] at h
    by_cases hx : x = u
    · rw [if_pos hx] at h
      cases h
      rw [hx]
      exact List.mem_cons_self _ _
    · rw [if_neg hx] at h
      exact List.mem_cons_of_mem _ (ih h)

theorem hasEdge_iff (g : dot.Graph) (a b : Int) :
    hasEdge g a b = true ↔ (⟨a, b⟩ : Edge) ∈ g.Edges := by
  simp [hasEdge]

theorem hasEdge_of_pairConsistent (t : SubGraph) (target : dot.Graph) (u v a b : Int)
    (hc : pairConsistent t target u v a b = true) (he : templateEdge t u v = true) :
    hasEdge target a b = true := by
  unfold templateEdge at he
  unfold pairConsistent at hc
  rw [Bool.and_eq_true] at he
  obtain ⟨hr, ht⟩ := he
  rw [hr, ht] at hc
  simpa using hc

theorem sound_init (t : SubGraph) (target : dot.Graph) (a : Int) :
    Mapping.sound t target [(t.entry, a)] := by
  intro u v x y hu hv he
  rw [image_cons] at hv
  by_cases h : v = t.entry
  · subst h
    simp [templateEdge, relevantPair] at he
  · rw [if_neg h] at hv
    simp [Mapping.image] at hv

theorem sound_cons (t : SubGraph) (target : dot.Graph) (m : Mapping) (u c : Int)
    (hm : Mapping.sound t target m) (hc : consistent t target m u c = true) :
    Mapping.sound t target ((u, c) :: m) := by
  unfold consistent at hc
  rw [Bool.and_eq_true, List.all_eq_true] at hc
  obtain ⟨hself, hall⟩ := hc
  intro x y a b hx hy he
  rw [image_cons] at hx hy
  by_cases h1 : x = u
  · rw [if_pos h1] at hx
    cases hx
    subst h1
    by_cases h2 : y = x
    · rw [if_pos h2] at hy
      cases hy
      subst h2
      exact hasEdge_of_pairConsistent t target _ _ _ _ hself he
    · rw [if_neg h2] at hy
      have hp := hall (y, b) (mem_of_image m y b hy)
      rw [Bool.and_eq_true] at hp
      exact hasEdge_of_pairConsistent t target _ _ _ _ hp.1 he
  · rw [if_neg h1] at hx
    by_cases h2 : y = u
    · rw [if_pos h2] at hy
      cases hy
      subst h2
      have hp := hall (x, a) (mem_of_image m x a hx)
      rw [Bool.and_eq_true] at hp
      exact hasEdge_of_pairConsistent t target _ _ _ _ hp.2 he
    · rw [if_neg h2] at hy
      exact hm x y a b hx hy he

/-- Every Match found by the backtracking search from a sound Mapping is sound
and maps every template node. -/
theorem extend_sound (t : SubGraph) (target : dot.Graph) (excluded : List Int)
    (ord : List Int) (m : Mapping) (hm : Mapping.sound t target m)
    (r : Match) (hr : r ∈ extend t target excluded ord m) :
    Mapping.sound t target r ∧ covers t r = true := by
  induction ord generalizing m with
  | nil =>
    unfold extend at hr
    by_cases hc : covers t m = true
    · rw [if_pos hc, List.mem_singleton] at hr
      rw [hr]
      exact ⟨hm, hc⟩
    · rw [if_neg hc] at hr
      cases hr
  | cons u rest ih =>
    unfold extend at hr
    rw [List.mem_flatMap] at hr
    obtain ⟨c, hc, hrc⟩ := hr
    rw [List.mem_filter] at hc
    exact ih ((u, c) :: m) (sound_cons t target m u c hm hc.2) hrc

theorem searchFrom_sound (t : SubGraph) (target : dot.Graph) (excluded : List Int) (a : Int)
    (r : Match) (hr : r ∈ searchFrom t target excluded a) :
    Mapping.sound t target r ∧ covers t r = true :=
  extend_sound t target excluded (order t).tail [(t.entry, a)] (sound_init t target a) r hr

theorem disjointMatches_sound (t : SubGraph) (target : dot.Graph) (anchors excluded : List Int)
    (r : Match) (hr : r ∈ disjointMatches t target anchors excluded) :
    Mapping.sound t target r ∧ covers t r = true := by
  induction anchors generalizing excluded with
  | nil => simp [disjointMatches] at hr
  | cons a anchors ih =>
    unfold disjointMatches at hr
    by_cases hx : excluded.contains a = true
    · rw [if_pos hx] at hr
      exact ih excluded hr
    · rw [if_neg hx] at hr
      cases hs : searchFrom t target excluded a with
      | nil =>
        rw [hs] at hr
        exact ih excluded hr
      | cons m ms =>
        rw [hs] at hr
        simp only [List.mem_cons] at hr
        rcases hr with h | h
        · rw [h]
          exact searchFrom_sound t target excluded a m (by rw [hs]; exact List.mem_cons_self _ _)
        · exact ih _ h

theorem matchTemplate_members (t : SubGraph) (target : dot.Graph) (policy : Policy)
    (ms : List Match) (h : matchTemplate t target policy = .ok ms) (r : Match) (hr : r ∈ ms) :
    Mapping.sound t target r ∧ covers t r = true := by
  unfold matchTemplate at h
  by_cases hinv : t.entry = t.exit ∧ 1 < t.Graph.Nodes.length
  · rw [if_pos hinv] at h
    cases h
  · rw [if_neg hinv] at h
    have hms := Except.ok.inj h
    subst hms
    cases policy with
    | AllMatches =>
      simp only [List.mem_flatMap] at hr
      obtain ⟨a, -, hra⟩ := hr
      exact searchFrom_sound t target [] a r hra
    | FirstMatch =>
      have hr1 := List.mem_of_mem_take hr
      simp only [List.mem_flatMap] at hr1
      obtain ⟨a, -, hra⟩ := hr1
      exact searchFrom_sound t target [] a r hra
    | DisjointMatches =>
      exact disjointMatches_sound t target _ [] r hr

theorem image_of_covers (t : SubGraph) (m : Mapping) (hc : covers t m = true) (u : Int)
    (hu : u ∈ t.Graph.Nodes.map fun n => n.Index) : ∃ a, Mapping.image m u = some a := by
  unfold covers at hc
  rw [List.all_eq_true] at hc
  rw [List.mem_map] at hu
  obtain ⟨n, hn, rfl⟩ := hu
  exact Option.isSome_iff_exists.mp (hc n hn)

/-- The first scenario of the testable properties: the chain template has
exactly three Matches in the 3-cycle under `AllMatches`, one per rotation. -/
theorem matchTemplate_chain_in_cycle :
    matchTemplate chainTemplate cycleTarget .AllMatches =
      .ok [[(3, 30), (2, 20), (1, 10)], [(3, 10), (2, 30), (1, 20)],
        [(3, 20), (2, 10), (1, 30)]] := rfl

/-- C11: soundness of the isomorphism search with the entry/exit exclusion
rule: for every template, target graph and policy, every Match returned by the
matcher maps each template edge between template nodes, other than the edges
incoming to the entry node and the edges outgoing from the exit node, to an
edge present in the target graph. -/
theorem matchTemplate_sound (t : SubGraph) (target : dot.Graph) (policy : Policy)
    (ms : List Match) (m : Match) (e : Edge)
    (h : matchTemplate t target policy = .ok ms) (hm : m ∈ ms)
    (he : e ∈ t.Graph.Edges) (hrel : relevantEdge t e = true)
    (hsrc : e.Src ∈ t.Graph.Nodes.map fun n => n.Index)
    (hdst : e.Dst ∈ t.Graph.Nodes.map fun n => n.Index) :
    ∃ a b, m.image e.Src = some a ∧ m.image e.Dst = some b ∧
      (⟨a, b⟩ : Edge) ∈ target.Edges := by
  obtain ⟨hsound, hcov⟩ := matchTemplate_members t target policy ms h m hm
  obtain ⟨a, ha⟩ := image_of_covers t m hcov e.Src hsrc
  obtain ⟨b, hb⟩ := image_of_covers t m hcov e.Dst hdst
  refine ⟨a, b, ha, hb, ?_⟩
  rw [← hasEdge_iff]
  apply hsound e.Src e.Dst a b ha hb
  unfold templateEdge
  rw [Bool.and_eq_true]
  exact ⟨hrel, (hasEdge_iff _ _ _).mpr he⟩

theorem matchTemplate_sound_witness :
    ∃ a b, Mapping.image [(3, 10), (2, 30), (1, 20)] (2 : Int) = some a ∧
      Mapping.image [(3, 10), (2, 30), (1, 20)] (3 : Int) = some b ∧
      (⟨a, b⟩ : Edge) ∈ cycleTarget.Edges :=
  matchTemplate_sound chainTemplate cycleTarget .AllMatches
    [[(3, 30), (2, 20), (1, 10)], [(3, 10), (2, 30), (1, 20)], [(3, 20), (2, 10), (1, 30)]]
    [(3, 10), (2, 30), (1, 20)] ⟨2, 3⟩
    rfl (by decide) (by decide) (by decide) (by decide) (by decide)

/-! ## The function on an explicit memory: frame and refinement -/

theorem read_extend (base : List mem.Obj) (o : mem.Obj) (a : mem.Addr) (x : mem.Obj)
    (h : (mem.Heap.mk base).read a = some x) :
    (mem.Heap.mk (base ++ [o])).read a = some x := by
  unfold mem.Heap.read at h ⊢
  simp only at h ⊢
  have hlt : a < base.length := (List.getElem?_eq_some_iff.mp h).1
  rw [List.getElem?_append_left hlt]
  exact h

theorem read_last (base : List mem.Obj) (o : mem.Obj) :
    (mem.Heap.mk (base ++ [o])).read base.length = some o := by
  unfold mem.Heap.read
  exact List.getElem?_concat_length base o

theorem write_last (base : List mem.Obj) (o o1 : mem.Obj) :
    (mem.Heap.mk (base ++ [o])).write base.length o1 = mem.Heap.mk (base ++ [o1]) := by
  unfold mem.Heap.write
  simp

theorem getEntry_last (base : List mem.Obj) (g : mem.Addr) (e x : Int) :
    mem.getEntry (mem.Heap.mk (base ++ [.sub g e x])) base.length = some e := by
  simp [mem.getEntry, read_last]

theorem getExit_last (base : List mem.Obj) (g : mem.Addr) (e x : Int) :
    mem.getExit (mem.Heap.mk (base ++ [.sub g e x])) base.length = some x := by
  simp [mem.getExit, read_last]

theorem setEntry_last (base : List mem.Obj) (g : mem.Addr) (e x i : Int) :
    mem.setEntry (mem.Heap.mk (base ++ [.sub g e x])) base.length i =
      some (mem.Heap.mk (base ++ [.sub g i x])) := by
  simp [mem.setEntry, read_last, write_last]

theorem setExit_last (base : List mem.Obj) (g : mem.Addr) (e x i : Int) :
    mem.setExit (mem.Heap.mk (base ++ [.sub g e x])) base.length i =
      some (mem.Heap.mk (base ++ [.sub g e i])) := by
  simp [mem.setExit, read_last, write_last]

/-- An iteration writes nowhere but into the `SubGraph` object allocated by the
call, whatever the node pointer holds, and leaves the pointer `sub` alone. -/
theorem mem_step_frame (base : List mem.Obj) (g : mem.Addr) (e x : Int) (v : mem.Vars)
    (node : mem.Addr) (hv : v.sub = base.length) :
    (∃ e1 x1, (mem.step (mem.Heap.mk (base ++ [.sub g e x])) v node).1 =
        mem.Heap.mk (base ++ [.sub g e1 x1])) ∧
      ∀ v1, (mem.step (mem.Heap.mk (base ++ [.sub g e x])) v node).2 = .next v1 →
        v1.sub = base.length := by
  unfold mem.step
  rw [hv]
  split
  · split
    · exact ⟨⟨e, x, rfl⟩, fun v1 h1 => by cases h1; exact hv⟩
    · split
      · split
        · rw [getEntry_last]
          exact ⟨⟨e, x, rfl⟩, fun v1 h1 => by cases h1⟩
        · rw [setEntry_last]
          exact ⟨⟨_, x, rfl⟩, fun v1 h1 => by cases h1; rfl⟩
      · split
        · split
          · rw [getExit_last]
            exact ⟨⟨e, x, rfl⟩, fun v1 h1 => by cases h1⟩
          · rw [setExit_last]
            exact ⟨⟨e, _, rfl⟩, fun v1 h1 => by cases h1; rfl⟩
        · exact ⟨⟨e, x, rfl⟩, fun v1 h1 => by cases h1; exact hv⟩
  · exact ⟨⟨e, x, rfl⟩, fun v1 h1 => by cases h1⟩

/-- The loop writes nowhere but into the `SubGraph` object allocated by the
call. -/
theorem mem_scan_frame (base : List mem.Obj) (g : mem.Addr) (ptrs : List mem.Addr)
    (e x : Int) (v : mem.Vars) (hv : v.sub = base.length) :
    (∃ e1 x1, (mem.scan (mem.Heap.mk (base ++ [.sub g e x])) v ptrs).1 =
        mem.Heap.mk (base ++ [.sub g e1 x1])) ∧
      ∀ v1, (mem.scan (mem.Heap.mk (base ++ [.sub g e x])) v ptrs).2 = .next v1 →
        v1.sub = base.length := by
  induction ptrs generalizing e x v with
  | nil => exact ⟨⟨e, x, rfl⟩, fun v1 h1 => by cases h1; exact hv⟩
  | cons node rest ih =>
    obtain ⟨⟨e1, x1, hheap⟩, hsub⟩ := mem_step_frame base g e x v node hv
    unfold mem.scan
    cases hs : mem.step (mem.Heap.mk (base ++ [.sub g e x])) v node with
    | mk h1 flow =>
      rw [hs] at hheap hsub
      simp only at hheap hsub
      subst hheap
      cases flow with
      | next v1 => exact ih e1 x1 v1 (hsub v1 rfl)
      | fail err => exact ⟨⟨e1, x1, rfl⟩, fun v1 h1 => by cases h1⟩
      | panic => exact ⟨⟨e1, x1, rfl⟩, fun v1 h1 => by cases h1⟩

theorem mem_finish_fst (h : mem.Heap) (flow : mem.Flow) : (mem.finish h flow).1 = h := by
  cases flow with
  | next v =>
    simp only [mem.finish]
    split
    · rfl
    · split <;> rfl
  | fail e => rfl
  | panic => rfl

theorem mem_finish_ok (h : mem.Heap) (flow : mem.Flow) (s : mem.Addr)
    (hs : (mem.finish h flow).2 = some (.ok s)) : ∃ v, flow = .next v ∧ v.sub = s := by
  cases flow with
  | next v =>
    simp only [mem.finish] at hs
    split at hs
    · cases hs
    · split at hs
      · cases hs
      · simp only [Option.some.injEq, Except.ok.injEq] at hs
        exact ⟨v, rfl, hs⟩
  | fail e => cases hs
  | panic => cases hs

/-- The memory after a call is the memory before it with one object added, the
`SubGraph` allocated by the call, which points to the input graph; a returned
pointer is the address of that object. -/
theorem mem_NewSubGraph_frame (h : mem.Heap) (graph : mem.Addr) :
    (∃ e x, (mem.NewSubGraph h graph).1 = mem.Heap.mk (h.cells ++ [.sub graph e x])) ∧
      ∀ s, (mem.NewSubGraph h graph).2 = some (.ok s) → s = h.cells.length := by
  unfold mem.NewSubGraph mem.Heap.alloc
  simp only
  split
  · split
    · rename_i ptrs _
      obtain ⟨⟨e1, x1, hheap⟩, hsub⟩ := mem_scan_frame h.cells graph ptrs 0 0
        { sub := h.cells.length, hasEntry := false, hasExit := false } rfl
      cases hs : mem.scan (mem.Heap.mk (h.cells ++ [.sub graph 0 0]))
          { sub := h.cells.length, hasEntry := false, hasExit := false } ptrs with
      | mk h2 flow =>
        rw [hs] at hheap hsub
        simp only at hheap hsub
        subst hheap
        simp only [mem_finish_fst]
        refine ⟨⟨e1, x1, rfl⟩, ?_⟩
        intro s hok
        obtain ⟨v, hflow, hvs⟩ := mem_finish_ok _ flow s hok
        rw [← hvs]
        exact hsub v hflow
    · exact ⟨⟨0, 0, rfl⟩, fun s hs => by cases hs⟩
  · exact ⟨⟨0, 0, rfl⟩, fun s hs => by cases hs⟩

/-- An iteration on the memory does what the iteration on values does, when
the node pointer holds the node. -/
theorem mem_step_refines (base : List mem.Obj) (g : mem.Addr) (st : Scan) (p : mem.Addr)
    (n : Node) (hp : (mem.Heap.mk base).read p = some (.node n)) :
    mem.step (mem.Heap.mk (base ++ [.sub g st.sub.entry st.sub.exit]))
        { sub := base.length, hasEntry := st.hasEntry, hasExit := st.hasExit } p =
      match step st n with
      | .error e => (mem.Heap.mk (base ++ [.sub g st.sub.entry st.sub.exit]), .fail e)
      | .ok st1 =>
        (mem.Heap.mk (base ++ [.sub g st1.sub.entry st1.sub.exit]),
          .next { sub := base.length, hasEntry := st1.hasEntry, hasExit := st1.hasExit }) := by
  unfold mem.step
  rw [read_extend base _ p _ hp]
  simp only
  unfold step
  cases n.Attrs.get "label" with
  | none => rfl
  | some label =>
    simp only
    by_cases h1 : label = "entry"
    · simp only [h1, if_true]
      cases st.hasEntry with
      | true => simp [getEntry_last]
      | false => simp [setEntry_last]
    · simp only [h1, if_false]
      by_cases h2 : label = "exit"
      · simp only [h2, if_true]
        cases st.hasExit with
        | true => simp [getExit_last]
        | false => simp [setExit_last]
      · simp only [h2, if_false]

/-- The loop on the memory does what the loop on values does, when the node
pointers hold the nodes. -/
theorem mem_scan_refines (base : List mem.Obj) (g : mem.Addr) (ptrs : List mem.Addr)
    (nodes : List Node)
    (hp : List.Forall₂ (fun p n => (mem.Heap.mk base).read p = some (.node n)) ptrs nodes)
    (st : Scan) :
    mem.scan (mem.Heap.mk (base ++ [.sub g st.sub.entry st.sub.exit]))
        { sub := base.length, hasEntry := st.hasEntry, hasExit := st.hasExit } ptrs =
      (mem.Heap.mk (base ++ [.sub g (scan st nodes).1.sub.entry (scan st nodes).1.sub.exit]),
        match (scan st nodes).2 with
        | some e => .fail e
        | none =>
          .next { sub := base.length, hasEntry := (scan st nodes).1.hasEntry,
                  hasExit := (scan st nodes).1.hasExit }) := by
  induction hp generalizing st with
  | nil => rfl
  | @cons p n ptrs nodes hpn _ ih =>
    unfold mem.scan
    rw [mem_step_refines base g st p n hpn]
    simp only [scan]
    cases step st n with
    | error e => rfl
    | ok st1 => exact ih st1

/-- The call on the memory returns what the call on values returns, when the
memory holds the graph `g` behind the pointer `gp`: the same error, or the
address of a new `SubGraph` object that points to `gp` and carries the same
entry and exit. -/
theorem mem_NewSubGraph_refines (h : mem.Heap) (gp np : mem.Addr) (ptrs : List mem.Addr)
    (g : dot.Graph)
    (hg : h.read gp = some (.graph np g.Edges)) (hn : h.read np = some (.nodes ptrs))
    (hp : List.Forall₂ (fun p n => h.read p = some (.node n)) ptrs g.Nodes) :
    (mem.NewSubGraph h gp).2 =
        some (match NewSubGraph g with
          | .error e => .error e
          | .ok _ => .ok h.cells.length) ∧
      ∀ s, NewSubGraph g = .ok s →
        (mem.NewSubGraph h gp).1 = mem.Heap.mk (h.cells ++ [.sub gp s.entry s.exit]) := by
  have hscan : mem.scan (mem.Heap.mk (h.cells ++ [.sub gp 0 0]))
      { sub := h.cells.length, hasEntry := false, hasExit := false } ptrs =
      (mem.Heap.mk (h.cells ++ [.sub gp (scan (Scan.init g) g.Nodes).1.sub.entry
          (scan (Scan.init g) g.Nodes).1.sub.exit]),
        match (scan (Scan.init g) g.Nodes).2 with
        | some e => .fail e
        | none =>
          .next { sub := h.cells.length, hasEntry := (scan (Scan.init g) g.Nodes).1.hasEntry,
                  hasExit := (scan (Scan.init g) g.Nodes).1.hasExit }) :=
    mem_scan_refines h.cells gp ptrs g.Nodes hp (Scan.init g)
  unfold mem.NewSubGraph mem.Heap.alloc
  simp only
  rw [read_extend h.cells _ gp _ hg]
  simp only
  rw [read_extend h.cells _ np _ hn]
  simp only
  rw [hscan]
  unfold NewSubGraph
  cases hs : scan (Scan.init g) g.Nodes with
  | mk st r =>
    cases r with
    | some e => exact ⟨rfl, fun s hs1 => by cases hs1⟩
    | none =>
      obtain ⟨sub, hasEntry, hasExit⟩ := st
      cases hasEntry with
      | false => exact ⟨rfl, fun s hs1 => by cases hs1⟩
      | true =>
        cases hasExit with
        | false => exact ⟨rfl, fun s hs1 => by cases hs1⟩
        | true =>
          refine ⟨rfl, fun s hs1 => ?_⟩
          cases hs1
          rfl

/-- C9: `NewSubGraph` does not modify its input. With the graph `g` held in
memory behind the pointer `gp` (its edges, its node list, and each node with
its Index and attributes), after the call, whether it returns a subgraph, an
error or not at all, every object of the memory before the call is unchanged;
so the graph, the node list, each node and the edges read back as before; on
success the returned pointer holds a `SubGraph` whose graph component is the
pointer `gp` itself. The call returns what `NewSubGraph` on the value `g`
returns, whose subgraph has `g` as graph component. -/
theorem NewSubGraph_input_unchanged (h : mem.Heap) (gp np : mem.Addr) (ptrs : List mem.Addr)
    (g : dot.Graph)
    (hg : h.read gp = some (.graph np g.Edges)) (hn : h.read np = some (.nodes ptrs))
    (hp : List.Forall₂ (fun p n => h.read p = some (.node n)) ptrs g.Nodes) :
    (∀ a o, h.read a = some o → (mem.NewSubGraph h gp).1.read a = some o) ∧
      (mem.NewSubGraph h gp).1.read gp = some (.graph np g.Edges) ∧
      (mem.NewSubGraph h gp).1.read np = some (.nodes ptrs) ∧
      List.Forall₂ (fun p n => (mem.NewSubGraph h gp).1.read p = some (.node n)) ptrs g.Nodes ∧
      (∀ s, (mem.NewSubGraph h gp).2 = some (.ok s) →
        ∃ e x, (mem.NewSubGraph h gp).1.read s = some (.sub gp e x)) ∧
      (mem.NewSubGraph h gp).2 =
        some (match NewSubGraph g with
          | .error e => .error e
          | .ok _ => .ok h.cells.length) ∧
      (∀ s, NewSubGraph g = .ok s →
        s.Graph = g ∧
          (mem.NewSubGraph h gp).1.read h.cells.length = some (.sub gp s.entry s.exit)) := by
  obtain ⟨⟨e, x, hheap⟩, hret⟩ := mem_NewSubGraph_frame h gp
  have hkeep : ∀ a o, h.read a = some o → (mem.NewSubGraph h gp).1.read a = some o := by
    intro a o ha
    rw [hheap]
    exact read_extend h.cells _ a o ha
  obtain ⟨hres, hobj⟩ := mem_NewSubGraph_refines h gp np ptrs g hg hn hp
  refine ⟨hkeep, hkeep _ _ hg, hkeep _ _ hn, ?_, ?_, hres, ?_⟩
  · exact hp.imp fun {p} {n} hpn => hkeep p _ hpn
  · intro s hs
    rw [hret s hs, hheap]
    exact ⟨e, x, read_last h.cells _⟩
  · intro s hs
    constructor
    · obtain ⟨-, -, rfl⟩ := (NewSubGraph_ok_iff g s).mp hs
      rfl
    · rw [hobj s hs]
      exact read_last h.cells _

theorem NewSubGraph_input_unchanged_witness :
    (mem.NewSubGraph (mem.Heap.ofGraph ⟨[mkNode 3 (some "exit"), mkNode 5 (some "entry")],
        [⟨5, 3⟩]⟩) 0).2 = some (.ok 4) ∧
      (mem.NewSubGraph (mem.Heap.ofGraph ⟨[mkNode 3 (some "exit"), mkNode 5 (some "entry")],
        [⟨5, 3⟩]⟩) 0).1.read 4 = some (.sub 0 5 3) ∧
      (∀ a o, (mem.Heap.ofGraph ⟨[mkNode 3 (some "exit"), mkNode 5 (some "entry")],
          [⟨5, 3⟩]⟩).read a = some o →
        (mem.NewSubGraph (mem.Heap.ofGraph ⟨[mkNode 3 (some "exit"), mkNode 5 (some "entry")],
          [⟨5, 3⟩]⟩) 0).1.read a = some o) :=
  ⟨rfl, rfl,
    (NewSubGraph_input_unchanged
      (mem.Heap.ofGraph ⟨[mkNode 3 (some "exit"), mkNode 5 (some "entry")], [⟨5, 3⟩]⟩)
      0 1 [2, 3] ⟨[mkNode 3 (some "exit"), mkNode 5 (some "entry")], [⟨5, 3⟩]⟩
      rfl rfl (.cons rfl (.cons rfl .nil))).1⟩

end graphs
